import Mathlib

/-!
Verification of the distroclone tool (src/distroclone/main.py).

The program manipulates YAML-decoded, dynamically typed nested key-value
data (Python dicts keyed by strings).  We embed such data as the inductive
type `Val` below; Python dicts become association lists that preserve
insertion order, exactly as Python 3.7+ dicts do.  Machine-level details
(argument parsing, network fetch, the vcstool subprocess) are external
collaborators; the functions modelled here are the pure decision logic:
`merge` (deep merge), `get_extended_distribution_cache` (override loading
and truncation, called `resolve*` here), the prune step, the primary-clone
selection, and the release backfill selection from `main`.
-/

namespace Distroclone

/-- A Python/YAML value: int, str, bool, list or dict.  Dicts are ordered
association lists, mirroring Python dict insertion order. -/
inductive Val where
  | vint : Int → Val
  | vstr : String → Val
  | vbool : Bool → Val
  | vlist : List Val → Val
  | vdict : List (String × Val) → Val

/-- The concrete Python type of a value, as compared by `type(x) == type(y)`. -/
inductive PyType where
  | tint | tstr | tbool | tlist | tdict
deriving DecidableEq, Repr

def tagOf : Val → PyType
  | .vint _ => .tint
  | .vstr _ => .tstr
  | .vbool _ => .tbool
  | .vlist _ => .tlist
  | .vdict _ => .tdict

/-- Python truthiness of a value (`if x:`). -/
def pyTruthy : Val → Bool
  | .vint n => n != 0
  | .vstr s => s != ""
  | .vbool b => b
  | .vlist l => !l.isEmpty
  | .vdict d => !d.isEmpty

/-- `d[k]` lookup in an ordered dict (first matching key). -/
def lookup : List (String × Val) → String → Option Val
  | [], _ => none
  | (k', v) :: rest, k => if k' = k then some v else lookup rest k

/-- In-place update `d[k] = v` of an existing key: the entry keeps its
position.  (Python dicts hold each key once; we update the first hit.) -/
def setKey : List (String × Val) → String → Val → List (String × Val)
  | [], _, _ => []
  | (k', v') :: rest, k, v => if k' = k then (k, v) :: rest else (k', v') :: setKey rest k v

/-- `d[k] = v` on a dict that may or may not contain `k`: update in place
if present, else append (Python dict assignment). -/
def dictInsert (d : List (String × Val)) (k : String) (v : Val) : List (String × Val) :=
  if (lookup d k).isSome then setKey d k v else d ++ [(k, v)]

/-- `repo.get(k)` — key lookup on a dict value, `none` otherwise. -/
def Val.get : Val → String → Option Val
  | .vdict es, k => lookup es k
  | _, _ => none

/-- `'k' in release` for a dict value. -/
def hasKeyB (v : Val) (k : String) : Bool :=
  match v with
  | .vdict es => (lookup es k).isSome
  | _ => false

/-- A merge conflict: the dotted key path (as the list of path components
joined with `.` by the source) and the two conflicting values. -/
structure Conflict where
  path : List String
  baseVal : Val
  overrideVal : Val

/-- `merge(a, b, path, logger)` from main.py lines 133-162.

For each key of `b` in order: insert if absent from `a`; recurse when both
values are dicts (note: the recursive call at line 151 passes only
`path + [str(key)]` — the `logger` argument is NOT forwarded, so nested
merges run with `logger=None`); replace when the concrete types agree;
otherwise a conflict: with a logger it only warns (`a[key]` is NOT
reassigned), without one it raises.

The result is `.ok (warnings, a')` on normal return and
`.error (conflict, a')` when `RuntimeError` is raised, where `a'` is the
state of the in-place-mutated `a` at that moment (mutations made before
the raise persist in the caller's dict). -/
def mergeEntries (a : List (String × Val)) (b : List (String × Val)) (path : List String)
    (hasLogger : Bool) :
    Except (Conflict × List (String × Val)) (List Conflict × List (String × Val)) :=
  match b with
  | [] => .ok ([], a)
  | (k, bv) :: bs =>
    match lookup a k with
    | none => mergeEntries (a ++ [(k, bv)]) bs path hasLogger
    | some av =>
      match av, bv with
      | .vdict ae, .vdict be =>
        match mergeEntries ae be (path ++ [k]) false with
        | .error (c, pd) => .error (c, setKey a k (.vdict pd))
        | .ok (ws, merged) =>
          match mergeEntries (setKey a k (.vdict merged)) bs path hasLogger with
          | .error e => .error e
          | .ok (ws', r) => .ok (ws ++ ws', r)
      | _, _ =>
        if tagOf av = tagOf bv then
          mergeEntries (setKey a k bv) bs path hasLogger
        else
          if hasLogger then
            match mergeEntries a bs path hasLogger with
            | .error e => .error e
            | .ok (ws, r) => .ok (⟨path ++ [k], av, bv⟩ :: ws, r)
          else .error (⟨path ++ [k], av, bv⟩, a)
termination_by sizeOf b

/-! ## ManifestResolver: `get_extended_distribution_cache` (lines 196-230) -/

/-- Errors that abort `get_extended_distribution_cache`. -/
inductive ResolveErr where
  | configLoad
  | mergeConflict (c : Conflict)
  | noLogger
  | keyError (k : String)

/-- Warnings the resolver routes to the diagnostic sink. -/
inductive RWarn where
  | configMissing
  | mergeWarn (c : Conflict)

/-- The override-merge stage of `get_extended_distribution_cache`
(lines 200-212), before truncation.

`repositories` is the decoded manifest tree; `cfgRead` is `none` when no
`config_file` was passed, `some r` when one was passed and
`read_cfg_file` returned `r` (`none` on IOError/KeyError/YAMLError).
An empty dict read result is falsy in Python and takes the
could-not-find path, exactly like a failed read.

When the read result is truthy and `logger is None`, line 211
(`logger.info(...)`) raises AttributeError before `merge` runs; this is
the `.noLogger` error.  On an error the carried dict is the state of the
caller's `repositories` object at the moment the exception escapes. -/
def resolveMerged (repositories : List (String × Val))
    (cfgRead : Option (Option (List (String × Val)))) (hasLogger : Bool) :
    Except (ResolveErr × List (String × Val)) (List RWarn × List (String × Val)) :=
  match cfgRead with
  | none => .ok ([], repositories)
  | some r =>
    match r with
    | some d =>
      if d.isEmpty then
        if hasLogger then .ok ([.configMissing], repositories)
        else .error (.configLoad, repositories)
      else
        if hasLogger then
          match mergeEntries repositories d [] true with
          | .error (c, pd) => .error (.mergeConflict c, pd)
          | .ok (ws, merged) => .ok (ws.map RWarn.mergeWarn, merged)
        else .error (.noLogger, repositories)
    | none =>
      if hasLogger then .ok ([.configMissing], repositories)
      else .error (.configLoad, repositories)

/-- `list(repoMerge.keys()) if repoMerge else []` at line 221. -/
def mergeKeysOf (cfgRead : Option (Option (List (String × Val)))) : List String :=
  match cfgRead with
  | some (some d) => if d.isEmpty then [] else d.map Prod.fst
  | _ => []

/-- The truncation loop of lines 218-227: iterate `keys`, copy
`repositories[key]` into the fresh dict, count every iteration and break
as soon as `count >= max_repos` (the check runs after the insertion, so
even `max_repos = 0` admits the first entry).  `repositories[key]` on an
absent key raises KeyError, modelled as `.error k`. -/
def limitGo : List String → List (String × Val) → List (String × Val) → Int → Int →
    Except String (List (String × Val))
  | [], _, acc, _, _ => .ok acc
  | k :: ks, repos, acc, count, maxRepos =>
    match lookup repos k with
    | none => .error k
    | some v =>
      let acc' := dictInsert acc k v
      if count + 1 ≥ maxRepos then .ok acc'
      else limitGo ks repos acc' (count + 1) maxRepos

/-- `get_extended_distribution_cache`: override merge (lines 200-212)
followed by the `max_repos` truncation (lines 214-228); a negative
`maxRepos` skips truncation entirely. -/
def resolve (repositories : List (String × Val))
    (cfgRead : Option (Option (List (String × Val)))) (maxRepos : Int) (hasLogger : Bool) :
    Except (ResolveErr × List (String × Val)) (List RWarn × List (String × Val)) :=
  match resolveMerged repositories cfgRead hasLogger with
  | .error e => .error e
  | .ok (ws, merged) =>
    if maxRepos ≥ 0 then
      match limitGo (mergeKeysOf cfgRead ++ merged.map Prod.fst) merged [] 0 maxRepos with
      | .error k => .error (.keyError k, merged)
      | .ok limited => .ok (ws, limited)
    else .ok (ws, merged)

/-! ## ReconciliationDriver: the steps of `main` -/

/-- Lines 50-57: the names `shutil.rmtree` is called on.  The listing
first drops `_release` (one `list.remove` call), then every remaining
name that is not a key of `repositories` is deleted. -/
def directoriesToRemove (existing : List String) (repoKeys : List String) : List String :=
  (existing.erase "_release").filter (fun n => ¬ repoKeys.contains n)

/-- The subdirectories of the output path that survive the prune step:
everything listed except the removed ones. -/
def afterPrune (existing : List String) (repoKeys : List String) : List String :=
  existing.filter (fun n => ¬ (directoriesToRemove existing repoKeys).contains n)

/-- Lines 59-63: the primary clone request.  For each entry,
`repo.get('source', repo.get('doc'))` selects the `source` value when the
key is present, else the `doc` value; the entry is included only when the
selected value is truthy (`if clone_repo:`). -/
def primaryCloneRepos : List (String × Val) → List (String × Val)
  | [] => []
  | (k, repo) :: rest =>
    match (match Val.get repo "source" with
           | some v => some v
           | none => Val.get repo "doc") with
    | some v => if pyTruthy v then (k, v) :: primaryCloneRepos rest else primaryCloneRepos rest
    | none => primaryCloneRepos rest

/-- The location synthesized for a backfilled package (lines 89-93). -/
def recloneLoc (u : Val) (distro p : String) : Val :=
  .vdict [("type", .vstr "git"), ("url", u), ("version", .vstr ("release/" ++ distro ++ "/" ++ p))]

/-- A `packages` value as the list of its string elements; `none` when the
value is not a list of strings (such data is outside the manifest's data
model and the Python loop would not iterate package names over it). -/
def strListOf : Val → Option (List String)
  | .vlist l =>
    l.foldr (fun x acc =>
      match x, acc with
      | .vstr s, some r => some (s :: r)
      | _, _ => none) (some [])
  | _ => none

/-- Inner loop of lines 86-94: walk one entry's `release['packages']`,
skipping names already in `packages_set`, adding a synthesized git
location for each missing one and marking it found.  `release['url']` is
read only when a missing package is handled; a missing `url` key then
raises KeyError (`none`). -/
def reclonePkgs (pkgs : List String) (urlv : Option Val) (distro : String) (pset : List String) :
    Option (List (String × Val) × List String) :=
  match pkgs with
  | [] => some ([], pset)
  | p :: ps =>
    if p ∈ pset then reclonePkgs ps urlv distro pset
    else
      match urlv with
      | none => none
      | some u =>
        match reclonePkgs ps urlv distro (p :: pset) with
        | none => none
        | some (reqs, pset') => some ((p, recloneLoc u distro p) :: reqs, pset')

/-- Outer loop of lines 83-94: for each repository entry with a truthy
`release` dict containing a `packages` key, run `reclonePkgs`.  Returns
the backfill request mapping (in insertion order) and the final
`packages_set`; `none` on data outside the manifest model (non-dict
subscripting, missing `url`, non-string package names). -/
def recloneGo : List (String × Val) → List String → String →
    Option (List (String × Val) × List String)
  | [], pset, _ => some ([], pset)
  | (_, repo) :: rest, pset, distro =>
    match Val.get repo "release" with
    | some release =>
      if pyTruthy release && hasKeyB release "packages" then
        match (Val.get release "packages").bind strListOf with
        | none => none
        | some pkgs =>
          match reclonePkgs pkgs (Val.get release "url") distro pset with
          | none => none
          | some (reqs₁, pset₁) =>
            match recloneGo rest pset₁ distro with
            | none => none
            | some (reqs₂, pset₂) => some (reqs₁ ++ reqs₂, pset₂)
      else recloneGo rest pset distro
    | none => recloneGo rest pset distro

/-- Entry `repo` declares package `p`: it has a truthy `release` dict with
a `packages` list of strings containing `p`. -/
def DeclaresPkg (repo : Val) (p : String) : Prop :=
  ∃ release pkgs, Val.get repo "release" = some release ∧
    (pyTruthy release && hasKeyB release "packages") = true ∧
    (Val.get release "packages").bind strListOf = some pkgs ∧ p ∈ pkgs

/-! ## Well-formedness and compatibility of trees -/

/-- A value is well formed when every dict in it has pairwise distinct
keys — automatic for data decoded from Python dicts. -/
def wfVal : Val → Bool
  | .vdict [] => true
  | .vdict ((k, v) :: rest) =>
    wfVal v && !(rest.any (fun q => q.1 == k)) && wfVal (.vdict rest)
  | _ => true
termination_by v => sizeOf v

/-- No type-conflicting keys between a base and an override value, at any
depth: on every key held by both, either both values are dicts and are
themselves compatible, or the concrete types agree. -/
def compatVal : Val → Val → Bool
  | .vdict _, .vdict [] => true
  | .vdict ae, .vdict ((k, bv) :: bs) =>
    (match lookup ae k with
     | some av => compatVal av bv
     | none => true) && compatVal (.vdict ae) (.vdict bs)
  | x, y => tagOf x = tagOf y
termination_by _ y => sizeOf y

/-! ## Basic dictionary lemmas -/

theorem lookup_eq_none_iff (l : List (String × Val)) (k : String) :
    lookup l k = none ↔ k ∉ l.map Prod.fst := by
  induction l with
  | nil => simp [lookup]
  | cons p rest ih =>
    obtain ⟨k', v⟩ := p
    simp only [lookup, List.map_cons, List.mem_cons]
    by_cases h : k' = k
    · subst h; simp
    · simp [h, ih, Ne.symm h]

theorem lookup_isSome_iff (l : List (String × Val)) (k : String) :
    (lookup l k).isSome = true ↔ k ∈ l.map Prod.fst := by
  rw [Option.isSome_iff_ne_none, ne_eq, lookup_eq_none_iff, not_not]

theorem lookup_append (l₁ l₂ : List (String × Val)) (k : String) :
    lookup (l₁ ++ l₂) k = (lookup l₁ k).or (lookup l₂ k) := by
  induction l₁ with
  | nil => simp [lookup]
  | cons p rest ih =>
    obtain ⟨k', v⟩ := p
    by_cases h : k' = k <;> simp [lookup, h, ih]

theorem lookup_mem_of_nodup (l : List (String × Val)) (k : String) (v : Val)
    (hnd : (l.map Prod.fst).Nodup) (hm : (k, v) ∈ l) : lookup l k = some v := by
  induction l with
  | nil => simp at hm
  | cons p rest ih =>
    obtain ⟨k', v'⟩ := p
    simp only [List.map_cons, List.nodup_cons] at hnd
    rcases List.mem_cons.mp hm with h | h
    · obtain ⟨h1, h2⟩ := Prod.mk.injEq .. ▸ h
      simp [lookup, h1.symm, h2]
    · have hk : k' ≠ k := by
        rintro rfl
        exact hnd.1 (List.mem_map.mpr ⟨(k', v), h, rfl⟩)
      simpa [lookup, hk] using ih hnd.2 h

theorem setKey_of_not_mem (l : List (String × Val)) (k : String) (v : Val)
    (h : lookup l k = none) : setKey l k v = l := by
  induction l with
  | nil => simp [setKey]
  | cons p rest ih =>
    obtain ⟨k', v'⟩ := p
    by_cases hk : k' = k
    · simp [lookup, hk] at h
    · simp only [lookup, hk, if_false] at h
      simp [setKey, hk, ih h]

theorem setKey_lookup_self (l : List (String × Val)) (k : String) (v : Val)
    (h : lookup l k = some v) : setKey l k v = l := by
  induction l with
  | nil => simp [lookup] at h
  | cons p rest ih =>
    obtain ⟨k', v'⟩ := p
    by_cases hk : k' = k
    · simp only [lookup, hk, if_true] at h
      obtain rfl := Option.some.injEq .. ▸ h
      simp [setKey, hk]
    · simp only [lookup, hk, if_false] at h
      simp [setKey, hk, ih h]

theorem lookup_setKey_same (l : List (String × Val)) (k : String) (v : Val)
    (h : (lookup l k).isSome) : lookup (setKey l k v) k = some v := by
  induction l with
  | nil => simp [lookup] at h
  | cons p rest ih =>
    obtain ⟨k', v'⟩ := p
    by_cases hk : k' = k
    · simp [setKey, lookup, hk]
    · simp only [lookup, hk, if_false] at h
      simp [setKey, lookup, hk, ih h]

theorem lookup_setKey_ne (l : List (String × Val)) (k : String) (v : Val) (k' : String)
    (h : k' ≠ k) : lookup (setKey l k v) k' = lookup l k' := by
  induction l with
  | nil => simp [setKey]
  | cons p rest ih =>
    obtain ⟨k₀, v₀⟩ := p
    by_cases hk : k₀ = k
    · simp [setKey, lookup, hk, Ne.symm h, hk ▸ (Ne.symm h)]
    · simp [setKey, lookup, hk, ih]

theorem map_fst_setKey (l : List (String × Val)) (k : String) (v : Val) :
    (setKey l k v).map Prod.fst = l.map Prod.fst := by
  induction l with
  | nil => simp [setKey]
  | cons p rest ih =>
    obtain ⟨k₀, v₀⟩ := p
    by_cases hk : k₀ = k
    · simp [setKey, hk]
    · simp [setKey, hk, ih]

/-! ## Deep-merge lemmas -/

/-- Frame property of `merge`: a key that does not occur in the override
`b` keeps its binding from `a` in the merged result. -/
theorem merge_frame (a b : List (String × Val)) (path : List String) (lg : Bool)
    (ws : List Conflict) (r : List (String × Val))
    (h : mergeEntries a b path lg = .ok (ws, r)) (k : String) (hk : lookup b k = none) :
    lookup r k = lookup a k := by
  induction a, b, path, lg using mergeEntries.induct generalizing ws r
  -- b = []
  next a path lg =>
    simp only [mergeEntries, Except.ok.injEq, Prod.mk.injEq] at h
    obtain ⟨rfl, rfl⟩ := h
    rfl
  -- key absent in a
  next a path lg k₁ bv bs hnone ih =>
    have hkk : k₁ ≠ k := by
      intro e; simp [lookup, e] at hk
    have hk' : lookup bs k = none := by simpa [lookup, hkk] using hk
    simp only [mergeEntries, hnone] at h
    rw [ih ws r h hk', lookup_append]
    simp [lookup, hkk]
  -- both dicts, nested merge raises
  next a path lg k₁ bs ae be c pd herr hsome ih =>
    simp only [mergeEntries, hsome, herr] at h
    exact Except.noConfusion h
  -- both dicts, nested ok, outer recursion raises
  next a path lg k₁ bs ae be ws₀ merged hok e houter hsome ih2 ih1 =>
    simp only [mergeEntries, hsome, hok, houter] at h
    exact Except.noConfusion h
  -- both dicts, nested ok, outer ok
  next a path lg k₁ bs ae be ws₀ merged hok ws' r' houter hsome ih2 ih1 =>
    have hkk : k₁ ≠ k := by
      intro e; simp [lookup, e] at hk
    have hk' : lookup bs k = none := by simpa [lookup, hkk] using hk
    simp only [mergeEntries, hsome, hok, houter, Except.ok.injEq, Prod.mk.injEq] at h
    obtain ⟨-, rfl⟩ := h
    rw [ih1 ws' r' houter hk', lookup_setKey_ne _ _ _ _ (Ne.symm hkk)]
  -- same concrete type: replace
  next a path lg k₁ bv bs av hsome htag hnotboth ih1 =>
    have hkk : k₁ ≠ k := by
      intro e; simp [lookup, e] at hk
    have hk' : lookup bs k = none := by simpa [lookup, hkk] using hk
    simp only [mergeEntries, hsome] at h
    rw [if_pos htag] at h
    rw [ih1 ws r h hk', lookup_setKey_ne _ _ _ _ (Ne.symm hkk)]
  -- conflict, logger present, recursion raises
  next a path k₁ bv bs av hsome htag hnotboth e herr ih1 =>
    simp [mergeEntries, hsome, htag, herr] at h
  -- conflict, logger present, warning recorded, recursion ok
  next a path k₁ bv bs av hsome htag ws₀ r₀ hnotboth hok ih1 =>
    have hkk : k₁ ≠ k := by
      intro e; simp [lookup, e] at hk
    have hk' : lookup bs k = none := by simpa [lookup, hkk] using hk
    simp only [mergeEntries, hsome] at h
    rw [if_neg htag] at h
    simp only [if_true, hok, Except.ok.injEq, Prod.mk.injEq] at h
    obtain ⟨-, rfl⟩ := h
    exact ih1 ws₀ r₀ hok hk'
  -- conflict, no logger: raise
  next a path lg k₁ bv bs av hsome htag hlg hnotboth =>
    simp [mergeEntries, hsome, htag, hlg] at h

/-! ### One-step unfolding lemmas for `mergeEntries` -/

theorem mergeEntries_nil (a : List (String × Val)) (path : List String) (lg : Bool) :
    mergeEntries a [] path lg = .ok ([], a) := by
  simp [mergeEntries]

theorem mergeEntries_cons_absent (a : List (String × Val)) (k : String) (bv : Val)
    (bs : List (String × Val)) (path : List String) (lg : Bool)
    (ha : lookup a k = none) :
    mergeEntries a ((k, bv) :: bs) path lg = mergeEntries (a ++ [(k, bv)]) bs path lg := by
  simp [mergeEntries, ha]

theorem mergeEntries_cons_dict (a : List (String × Val)) (k : String)
    (ae be bs : List (String × Val)) (path : List String) (lg : Bool)
    (ha : lookup a k = some (.vdict ae)) :
    mergeEntries a ((k, .vdict be) :: bs) path lg =
      match mergeEntries ae be (path ++ [k]) false with
      | .error (c, pd) => .error (c, setKey a k (.vdict pd))
      | .ok (ws, merged) =>
        match mergeEntries (setKey a k (.vdict merged)) bs path lg with
        | .error e => .error e
        | .ok (ws', r) => .ok (ws ++ ws', r) := by
  simp [mergeEntries, ha]

theorem mergeEntries_cons_same (a : List (String × Val)) (k : String) (av bv : Val)
    (bs : List (String × Val)) (path : List String) (lg : Bool)
    (ha : lookup a k = some av) (htag : tagOf av = tagOf bv)
    (hbd : tagOf bv ≠ PyType.tdict) :
    mergeEntries a ((k, bv) :: bs) path lg = mergeEntries (setKey a k bv) bs path lg := by
  simp only [mergeEntries, ha]
  split
  · exact absurd rfl hbd
  · rw [if_pos htag]

theorem mergeEntries_cons_conflict (a : List (String × Val)) (k : String) (av bv : Val)
    (bs : List (String × Val)) (path : List String) (lg : Bool)
    (ha : lookup a k = some av) (hne : tagOf av ≠ tagOf bv) :
    mergeEntries a ((k, bv) :: bs) path lg =
      if lg then
        match mergeEntries a bs path lg with
        | .error e => .error e
        | .ok (ws, r) => .ok (⟨path ++ [k], av, bv⟩ :: ws, r)
      else .error (⟨path ++ [k], av, bv⟩, a) := by
  simp only [mergeEntries, ha]
  split
  · exact absurd rfl hne
  · rw [if_neg hne]

/-- Merging an override whose keys are all fresh appends its entries in
order, with no warnings and no conflicts. -/
theorem merge_fresh (b a : List (String × Val)) (path : List String) (lg : Bool)
    (hfresh : ∀ k ∈ b.map Prod.fst, lookup a k = none)
    (hnd : (b.map Prod.fst).Nodup) :
    mergeEntries a b path lg = .ok ([], a ++ b) := by
  induction b generalizing a with
  | nil => simp [mergeEntries_nil]
  | cons p bs ih =>
    obtain ⟨k, bv⟩ := p
    have hk : lookup a k = none := hfresh k (by simp)
    simp only [List.map_cons, List.nodup_cons] at hnd
    rw [mergeEntries_cons_absent a k bv bs path lg hk, ih (a ++ [(k, bv)])]
    · simp
    · intro k' hk'
      have hkk : k ≠ k' := by
        rintro rfl; exact hnd.1 hk'
      rw [lookup_append]
      simp [hfresh k' (by simp [hk']), lookup, hkk]
    · exact hnd.2

theorem merge_conflict_policy (b a : List (String × Val)) (k : String) (av bv : Val)
    (ha : lookup a k = some av) (hb : lookup b k = some bv)
    (hconf : tagOf av ≠ tagOf bv)
    (honly : ∀ k', k' ≠ k → k' ∈ b.map Prod.fst → lookup a k' = none)
    (hnd : (b.map Prod.fst).Nodup) :
    (∃ pd, mergeEntries a b [] false = .error (⟨[k], av, bv⟩, pd)) ∧
    (∃ r, mergeEntries a b [] true = .ok ([⟨[k], av, bv⟩], r) ∧ lookup r k = some av) := by
  induction b generalizing a with
  | nil => simp [lookup] at hb
  | cons p bs ih =>
    obtain ⟨k₁, bv₁⟩ := p
    simp only [List.map_cons, List.nodup_cons] at hnd
    by_cases hkk : k₁ = k
    · subst hkk
      have hbv : bv₁ = bv := by simpa [lookup] using hb
      subst hbv
      have hbs : ∀ k' ∈ bs.map Prod.fst, lookup a k' = none := by
        intro k' hk'
        have : k' ≠ k₁ := by rintro rfl; exact hnd.1 hk'
        exact honly k' this (by simp [hk'])
      have hfr := merge_fresh bs a [] true hbs hnd.2
      refine ⟨⟨a, ?_⟩, ⟨a ++ bs, ?_, ?_⟩⟩
      · rw [mergeEntries_cons_conflict a k₁ av bv₁ bs [] false ha hconf]
        simp
      · rw [mergeEntries_cons_conflict a k₁ av bv₁ bs [] true ha hconf]
        simp [hfr]
      · rw [lookup_append, ha]; rfl
    · have hb' : lookup bs k = some bv := by
        simpa [lookup, hkk] using hb
      have hk₁ : lookup a k₁ = none := honly k₁ hkk (by simp)
      have ha' : lookup (a ++ [(k₁, bv₁)]) k = some av := by
        rw [lookup_append, ha]; rfl
      have honly' : ∀ k', k' ≠ k → k' ∈ bs.map Prod.fst →
          lookup (a ++ [(k₁, bv₁)]) k' = none := by
        intro k' h1 h2
        have hne : k₁ ≠ k' := by rintro rfl; exact hnd.1 h2
        rw [lookup_append, honly k' h1 (by simp [h2])]
        simp [lookup, hne]
      have hih := ih (a ++ [(k₁, bv₁)]) ha' hb' honly' hnd.2
      refine ⟨?_, ?_⟩
      · obtain ⟨pd, hpd⟩ := hih.1
        exact ⟨pd, by rw [mergeEntries_cons_absent a k₁ bv₁ bs [] false hk₁]; exact hpd⟩
      · obtain ⟨r, hr1, hr2⟩ := hih.2
        exact ⟨r, by rw [mergeEntries_cons_absent a k₁ bv₁ bs [] true hk₁]; exact hr1, hr2⟩

/-! ## Claim C1 -/

/-- C1 counterexample: `merge({k: 1}, {k: "s"})` with a diagnostic sink
produces `{k: 1}` (and one warning) — the base's value is kept, NOT the
override's value `{k: "s"}` that the claim asserts. -/
theorem c1_sink_keeps_base_counterexample :
    mergeEntries [("k", .vint 1)] [("k", .vstr "s")] [] true
      = .ok ([⟨["k"], .vint 1, .vstr "s"⟩], [("k", .vint 1)]) ∧
    ([("k", Val.vint 1)] : List (String × Val)) ≠ [("k", Val.vstr "s")] := by
  refine ⟨?_, by simp⟩
  simp [mergeEntries, lookup, tagOf]

/-- C1 (amended): for a base and override holding values of incompatible
concrete types at a key `k` (the only key the override shares with the
base): with no diagnostic sink, merge fails with a MergeConflict error
carrying the dotted key path and both values; with a sink, merge emits
exactly one warning carrying the path and both values, and the BASE's
value remains bound at that key (the override's value does not replace
it). -/
theorem c1_conflict_policy (b a : List (String × Val)) (k : String) (av bv : Val)
    (ha : lookup a k = some av) (hb : lookup b k = some bv)
    (hconf : tagOf av ≠ tagOf bv)
    (honly : ∀ k', k' ≠ k → k' ∈ b.map Prod.fst → lookup a k' = none)
    (hnd : (b.map Prod.fst).Nodup) :
    (∃ pd, mergeEntries a b [] false = .error (⟨[k], av, bv⟩, pd)) ∧
    (∃ r, mergeEntries a b [] true = .ok ([⟨[k], av, bv⟩], r) ∧ lookup r k = some av) :=
  merge_conflict_policy b a k av bv ha hb hconf honly hnd

/-- C1 witness: the policy at the concrete input `{k: 1}` vs `{k: "s"}`. -/
theorem c1_conflict_policy_witness :
    (∃ pd, mergeEntries [("k", .vint 1)] [("k", .vstr "s")] [] false
        = .error (⟨["k"], .vint 1, .vstr "s"⟩, pd)) ∧
    (∃ r, mergeEntries [("k", .vint 1)] [("k", .vstr "s")] [] true
        = .ok ([⟨["k"], .vint 1, .vstr "s"⟩], r) ∧ lookup r "k" = some (.vint 1)) :=
  c1_conflict_policy [("k", .vstr "s")] [("k", .vint 1)] "k" (.vint 1) (.vstr "s")
    (by simp [lookup]) (by simp [lookup]) (by decide)
    (by intro k' h1 h2; simp at h2; exact absurd h2 h1) (by simp)

/-! ## Claim C3 -/

/-- C3: the code at the failing input.  Merging `{x: {k: 1}}` with
`{x: {k: "s"}}` WITH a diagnostic sink supplied nevertheless raises
(RuntimeError) on the nested conflict at path `x.k`, because the
recursive call at line 151 does not forward the logger.  The claim says a
supplied sink routes every conflict, at any depth, to the warning path. -/
theorem c3_nested_conflict_raises_despite_sink :
    mergeEntries [("x", .vdict [("k", .vint 1)])] [("x", .vdict [("k", .vstr "s")])] [] true
      = .error (⟨["x", "k"], .vint 1, .vstr "s"⟩, [("x", .vdict [("k", .vint 1)])]) := by
  simp [mergeEntries, lookup, tagOf, setKey]

/-! ## Claim C10 -/

/-- C10: `merge(base, override)` leaves every key of the base that does
not occur in the override bound to its original value. -/
theorem c10_merge_frame (a b : List (String × Val)) (path : List String) (lg : Bool)
    (ws : List Conflict) (r : List (String × Val))
    (h : mergeEntries a b path lg = .ok (ws, r))
    (k : String) (hk : k ∉ b.map Prod.fst) :
    lookup r k = lookup a k :=
  merge_frame a b path lg ws r h k ((lookup_eq_none_iff b k).mpr hk)

/-- C10 witness at a concrete merge: key `x` is absent from the override
and keeps its base binding. -/
theorem c10_merge_frame_witness :
    lookup [("x", Val.vint 1), ("y", Val.vint 3)] "x"
      = lookup [("x", Val.vint 1), ("y", Val.vint 2)] "x" :=
  c10_merge_frame [("x", .vint 1), ("y", .vint 2)] [("y", .vint 3)] [] true
    [] [("x", .vint 1), ("y", .vint 3)]
    (by simp [mergeEntries, lookup, tagOf, setKey]) "x" (by simp)

/-! ## Claim C2 -/

/-- C2 counterexample: a resolver call with an override path whose read
failed and with a diagnostic sink supplied (as `main` always supplies the
module logger) does NOT fail: it logs a warning and continues with the
unmerged manifest. -/
theorem c2_sink_continues_counterexample :
    resolve [("a", Val.vdict [])] (some none) (-1) true
      = .ok ([RWarn.configMissing], [("a", Val.vdict [])]) := by
  rfl

/-- C2 (amended): when an override path is given and the override file is
missing or fails to parse, resolve fails with ConfigLoadError only if no
diagnostic sink is supplied, and that failure occurs before any mutation
of the manifest tree (the error carries the tree unchanged); with a sink
supplied it emits a warning and continues without merging anything. -/
theorem c2_override_load_failure (repositories : List (String × Val)) (maxRepos : Int) :
    resolve repositories (some none) maxRepos false
      = .error (.configLoad, repositories) ∧
    resolve repositories (some none) (-1) true
      = .ok ([RWarn.configMissing], repositories) := by
  exact ⟨by simp [resolve, resolveMerged], by simp [resolve, resolveMerged]⟩

/-! ## Truncation lemmas -/

theorem setKey_length (l : List (String × Val)) (k : String) (v : Val) :
    (setKey l k v).length = l.length := by
  have h := congrArg List.length (map_fst_setKey l k v)
  simpa using h

theorem dictInsert_length_le (d : List (String × Val)) (k : String) (v : Val) :
    (dictInsert d k v).length ≤ d.length + 1 := by
  unfold dictInsert
  split
  · rw [setKey_length]; omega
  · simp

theorem limitGo_length (ks : List String) (repos acc : List (String × Val))
    (count maxRepos : Int) (res : List (String × Val))
    (h : limitGo ks repos acc count maxRepos = .ok res) (hcm : count < maxRepos) :
    res.length ≤ acc.length + (maxRepos - count).toNat := by
  induction ks generalizing acc count with
  | nil =>
    simp only [limitGo, Except.ok.injEq] at h
    subst h
    omega
  | cons k ks ih =>
    simp only [limitGo] at h
    cases hl : lookup repos k with
    | none => rw [hl] at h; exact Except.noConfusion h
    | some v =>
      rw [hl] at h
      simp only at h
      by_cases hc : count + 1 ≥ maxRepos
      · rw [if_pos hc] at h
        obtain rfl := Except.ok.injEq .. ▸ h
        have := dictInsert_length_le acc k v
        omega
      · rw [if_neg hc] at h
        have := ih (dictInsert acc k v) (count + 1) h (by omega)
        have h2 := dictInsert_length_le acc k v
        omega

/-- `limitGo` over keys of fresh pairs with values present in `repos`:
when the count limit falls inside this block, the result is the accumulator
followed by the first `maxRepos - count` pairs. -/
theorem limitGo_take (pairs : List (String × Val)) (ks : List String)
    (repos acc : List (String × Val)) (count maxRepos : Int)
    (hvals : ∀ p ∈ pairs, lookup repos p.1 = some p.2)
    (hfresh : ∀ p ∈ pairs, lookup acc p.1 = none)
    (hnd : (pairs.map Prod.fst).Nodup)
    (hlow : count < maxRepos) (hhigh : maxRepos ≤ count + pairs.length) :
    limitGo (pairs.map Prod.fst ++ ks) repos acc count maxRepos
      = .ok (acc ++ pairs.take (maxRepos - count).toNat) := by
  induction pairs generalizing acc count with
  | nil => simp at hhigh; omega
  | cons p ps ih =>
    obtain ⟨k, v⟩ := p
    simp only [List.map_cons, List.nodup_cons] at hnd
    simp only [List.length_cons] at hhigh
    have hv : lookup repos k = some v := hvals (k, v) (by simp)
    have hf : lookup acc k = none := hfresh (k, v) (by simp)
    simp only [List.map_cons, List.cons_append, limitGo, hv, List.append_eq]
    have hins : dictInsert acc k v = acc ++ [(k, v)] := by
      simp [dictInsert, hf]
    by_cases hc : count + 1 ≥ maxRepos
    · rw [if_pos hc]
      have h1 : (maxRepos - count).toNat = 1 := by omega
      simp [hins, h1]
    · rw [if_neg hc, hins]
      rw [ih (acc ++ [(k, v)]) (count + 1)
        (fun p hp => hvals p (by simp [hp]))
        (fun p hp => by
          have hne : k ≠ p.1 := by
            intro e
            exact hnd.1 (e ▸ List.mem_map.mpr ⟨p, hp, rfl⟩)
          rw [lookup_append, hfresh p (by simp [hp])]
          simp [lookup, hne])
        hnd.2 (by omega) (by omega)]
      have h2 : (maxRepos - count).toNat = (maxRepos - (count + 1)).toNat + 1 := by omega
      simp [h2, List.take_succ_cons]

/-- `limitGo` runs through a block of fresh pairs without reaching the
limit: the pairs are appended and the count advances by their number. -/
theorem limitGo_passthrough (pairs : List (String × Val)) (ks : List String)
    (repos acc : List (String × Val)) (count maxRepos : Int)
    (hvals : ∀ p ∈ pairs, lookup repos p.1 = some p.2)
    (hfresh : ∀ p ∈ pairs, lookup acc p.1 = none)
    (hnd : (pairs.map Prod.fst).Nodup)
    (hhigh : count + pairs.length < maxRepos) :
    limitGo (pairs.map Prod.fst ++ ks) repos acc count maxRepos
      = limitGo ks repos (acc ++ pairs) (count + pairs.length) maxRepos := by
  induction pairs generalizing acc count with
  | nil => simp
  | cons p ps ih =>
    obtain ⟨k, v⟩ := p
    simp only [List.map_cons, List.nodup_cons] at hnd
    simp only [List.length_cons] at hhigh
    have hv : lookup repos k = some v := hvals (k, v) (by simp)
    have hf : lookup acc k = none := hfresh (k, v) (by simp)
    simp only [List.map_cons, List.cons_append, limitGo, hv, List.append_eq]
    have hins : dictInsert acc k v = acc ++ [(k, v)] := by
      simp [dictInsert, hf]
    rw [if_neg (by omega), hins]
    rw [ih (acc ++ [(k, v)]) (count + 1)
      (fun p hp => hvals p (by simp [hp]))
      (fun p hp => by
        have hne : k ≠ p.1 := by
          intro e
          exact hnd.1 (e ▸ List.mem_map.mpr ⟨p, hp, rfl⟩)
        rw [lookup_append, hfresh p (by simp [hp])]
        simp [lookup, hne])
      hnd.2 (by omega)]
    have e1 : (acc ++ [(k, v)]) ++ ps = acc ++ (k, v) :: ps := by simp
    have e2 : count + 1 + (ps.length : Int) = count + (((k, v) :: ps).length : Int) := by
      simp only [List.length_cons]; omega
    rw [e1, e2]

/-- `limitGo` over keys whose repo values already sit in the accumulator
under the same binding leaves the accumulator unchanged. -/
theorem limitGo_stable (ks : List String) (repos acc : List (String × Val))
    (count maxRepos : Int)
    (hall : ∀ k ∈ ks, ∃ v, lookup repos k = some v ∧ lookup acc k = some v) :
    limitGo ks repos acc count maxRepos = .ok acc := by
  induction ks generalizing count with
  | nil => rfl
  | cons k ks ih =>
    obtain ⟨v, hr, ha⟩ := hall k (by simp)
    simp only [limitGo, hr]
    have hins : dictInsert acc k v = acc := by
      simp [dictInsert, ha, setKey_lookup_self acc k v ha]
    rw [hins]
    by_cases hc : count + 1 ≥ maxRepos
    · rw [if_pos hc]
    · rw [if_neg hc]
      exact ih (count + 1) (fun k' hk' => hall k' (by simp [hk']))

end Distroclone

namespace Distroclone

/-! ## Claim C5 -/

/-- C5 counterexample: manifest `{a, b, c}`, override touching the
EXISTING key `b`, `max_repos = 3`.  Line 221 lists the override key and
then ALL manifest keys, so `b` is iterated twice and the counter reaches
3 after only two distinct entries: the result is `{b, a}`, not the
`{b, a, c}` (three selected entries) the claim requires. -/
theorem c5_dup_count_counterexample :
    resolve [("a", Val.vdict []), ("b", Val.vdict []), ("c", Val.vdict [])]
        (some (some [("b", Val.vdict [])])) 3 true
      = .ok ([], [("b", Val.vdict []), ("a", Val.vdict [])]) ∧
    ([("b", Val.vdict []), ("a", Val.vdict [])] : List (String × Val))
      ≠ [("b", Val.vdict []), ("a", Val.vdict []), ("c", Val.vdict [])] := by
  refine ⟨?_, by simp⟩
  simp [resolve, resolveMerged, mergeEntries, mergeKeysOf, limitGo, lookup, setKey,
    dictInsert, tagOf]

/-- C5 (amended): the truncation iterates the override's keys first and
then ALL manifest keys (keys already patched by the override included, so
such keys are counted twice), stopping once `maxCount` keys have been
iterated.  When the override introduces only NEW entries — as in the
spec's example — the duplicates lie beyond the cutoff and the result is
exactly: the override's entries first (in override order), then the
remaining original entries in original order, up to `maxCount` in total. -/
theorem c5_fresh_override_order (repositories ov : List (String × Val)) (maxRepos : Int)
    (hne : ov ≠ []) (hndo : (ov.map Prod.fst).Nodup)
    (hndr : (repositories.map Prod.fst).Nodup)
    (hdisj : ∀ k ∈ ov.map Prod.fst, k ∉ repositories.map Prod.fst)
    (hmax : 1 ≤ maxRepos) :
    resolve repositories (some (some ov)) maxRepos true
      = .ok ([], (ov ++ repositories).take maxRepos.toNat) := by
  have hovE : ov.isEmpty = false := by
    cases ov with
    | nil => exact absurd rfl hne
    | cons p l => rfl
  have hfresh : ∀ k ∈ ov.map Prod.fst, lookup repositories k = none :=
    fun k hk => (lookup_eq_none_iff _ _).mpr (hdisj k hk)
  have hmerge := merge_fresh ov repositories [] true hfresh hndo
  have hrm : resolveMerged repositories (some (some ov)) true
      = .ok ([], repositories ++ ov) := by
    simp [resolveMerged, hovE, hmerge]
  have hvo : ∀ p ∈ ov, lookup (repositories ++ ov) p.1 = some p.2 := by
    intro p hp
    rw [lookup_append, hfresh p.1 (List.mem_map.mpr ⟨p, hp, rfl⟩),
      lookup_mem_of_nodup ov p.1 p.2 hndo hp]
    rfl
  have hvr : ∀ p ∈ repositories, lookup (repositories ++ ov) p.1 = some p.2 := by
    intro p hp
    rw [lookup_append, lookup_mem_of_nodup repositories p.1 p.2 hndr hp]
    rfl
  have hrfresh : ∀ p ∈ repositories, lookup ov p.1 = none := by
    intro p hp
    refine (lookup_eq_none_iff _ _).mpr (fun hmem => ?_)
    exact hdisj p.1 hmem (List.mem_map.mpr ⟨p, hp, rfl⟩)
  simp only [resolve, hrm]
  rw [if_pos (show maxRepos ≥ 0 by omega)]
  have hmk : mergeKeysOf (some (some ov)) = ov.map Prod.fst := by
    simp [mergeKeysOf, hovE]
  rw [hmk, List.map_append]
  by_cases h1 : maxRepos ≤ (ov.length : Int)
  · rw [limitGo_take ov (repositories.map Prod.fst ++ ov.map Prod.fst)
      (repositories ++ ov) [] 0 maxRepos hvo (by simp [lookup]) hndo (by omega) (by omega)]
    rw [List.take_append_of_le_length (by omega)]
    simp
  · rw [limitGo_passthrough ov (repositories.map Prod.fst ++ ov.map Prod.fst)
      (repositories ++ ov) [] 0 maxRepos hvo (by simp [lookup]) hndo (by omega)]
    simp only [List.nil_append, zero_add]
    by_cases h2 : maxRepos ≤ (ov.length : Int) + repositories.length
    · rw [limitGo_take repositories (ov.map Prod.fst) (repositories ++ ov) ov
        (ov.length) maxRepos hvr hrfresh hndr (by omega) (by omega)]
      have hsplit : maxRepos.toNat = ov.length + (maxRepos - ov.length).toNat := by omega
      rw [hsplit, List.take_append]
    · rw [limitGo_passthrough repositories (ov.map Prod.fst) (repositories ++ ov) ov
        (ov.length) maxRepos hvr hrfresh hndr (by omega)]
      rw [limitGo_stable (ov.map Prod.fst) (repositories ++ ov) (ov ++ repositories)
        _ _ ?hall]
      · rw [List.take_of_length_le (by simp; omega)]
      case hall =>
        intro k hk
        obtain ⟨p, hp, rfl⟩ := List.mem_map.mp hk
        refine ⟨p.2, hvo p hp, ?_⟩
        rw [lookup_append, lookup_mem_of_nodup ov p.1 p.2 hndo hp]
        rfl

/-- C5 witness: a 5-entry manifest, an override introducing one new
entry, and `max_repos = 3` yield the override entry first, then the first
two original entries in original order. -/
theorem c5_fresh_override_order_witness :
    resolve [("m1", Val.vint 1), ("m2", Val.vint 2), ("m3", Val.vint 3),
             ("m4", Val.vint 4), ("m5", Val.vint 5)]
        (some (some [("ov1", Val.vint 0)])) 3 true
      = .ok ([], [("ov1", Val.vint 0), ("m1", Val.vint 1), ("m2", Val.vint 2)]) := by
  have h := c5_fresh_override_order
    [("m1", Val.vint 1), ("m2", Val.vint 2), ("m3", Val.vint 3),
     ("m4", Val.vint 4), ("m5", Val.vint 5)]
    [("ov1", Val.vint 0)] 3 (by simp) (by simp) (by decide) (by decide) (by omega)
  simpa using h

end Distroclone

namespace Distroclone

/-! ## Claim C6 -/

/-- C6: after the prune step, a listed directory survives exactly when it
is `_release` or its name is a key of the resolved RepositorySet:
`_release` is never deleted, every non-key subdirectory is deleted, every
key subdirectory remains. -/
theorem c6_prune (existing repoKeys : List String) (hnd : existing.Nodup) (n : String) :
    n ∈ afterPrune existing repoKeys ↔
      n ∈ existing ∧ (n = "_release" ∨ n ∈ repoKeys) := by
  simp [afterPrune, directoriesToRemove, List.mem_filter, List.Nodup.mem_erase_iff hnd]
  intro hmem
  tauto

/-- C6 witness: on-disk `{a, b, c, _release}` with keys `{a, c}` leaves
exactly `{a, c, _release}`; directory `b` is characterized by the
theorem. -/
theorem c6_prune_witness :
    afterPrune ["a", "b", "c", "_release"] ["a", "c"] = ["a", "c", "_release"] ∧
    ("b" ∈ afterPrune ["a", "b", "c", "_release"] ["a", "c"] ↔
      "b" ∈ ["a", "b", "c", "_release"] ∧ ("b" = "_release" ∨ "b" ∈ ["a", "c"])) :=
  ⟨by rfl, c6_prune ["a", "b", "c", "_release"] ["a", "c"] (by decide) "b"⟩

end Distroclone

namespace Distroclone

/-! ## Claim C8 -/

/-- Keys of the primary clone request come from the repository set. -/
theorem primaryCloneRepos_keys_sub (repos : List (String × Val)) :
    ∀ k ∈ (primaryCloneRepos repos).map Prod.fst, k ∈ repos.map Prod.fst := by
  induction repos with
  | nil => simp [primaryCloneRepos]
  | cons p rest ih =>
    obtain ⟨k₀, repo⟩ := p
    intro k hk
    simp only [primaryCloneRepos] at hk
    rcases hs : Val.get repo "source" with - | s
    · rcases hd : Val.get repo "doc" with - | d
      · simp only [hs, hd] at hk
        simp only [List.map_cons, List.mem_cons]
        exact Or.inr (ih k hk)
      · simp only [hs, hd] at hk
        by_cases ht : pyTruthy d
        · rw [if_pos ht] at hk
          simp only [List.map_cons, List.mem_cons] at hk ⊢
          rcases hk with h | h
          · exact Or.inl h
          · exact Or.inr (ih k h)
        · rw [if_neg ht] at hk
          simp only [List.map_cons, List.mem_cons]
          exact Or.inr (ih k hk)
    · simp only [hs] at hk
      by_cases ht : pyTruthy s
      · rw [if_pos ht] at hk
        simp only [List.map_cons, List.mem_cons] at hk ⊢
        rcases hk with h | h
        · exact Or.inl h
        · exact Or.inr (ih k h)
      · rw [if_neg ht] at hk
        simp only [List.map_cons, List.mem_cons]
        exact Or.inr (ih k hk)

/-- C8: the primary clone pass selects an entry's `source` location when
present, else its `doc` location, else omits the entry (silently, no
error): for every entry of a repository set whose present source/doc
values are actual locations (truthy), the clone request binds the entry's
key to exactly that selection, and to nothing when both are absent. -/
theorem c8_primary_clone (repos : List (String × Val))
    (hnd : (repos.map Prod.fst).Nodup)
    (htruthy : (repos.all (fun p => (Val.get p.2 "source").all pyTruthy
        && (Val.get p.2 "doc").all pyTruthy)) = true) :
    ∀ k repo, (k, repo) ∈ repos →
      lookup (primaryCloneRepos repos) k
        = (match Val.get repo "source" with
           | some v => some v
           | none => Val.get repo "doc") := by
  induction repos with
  | nil => simp
  | cons p rest ih =>
    obtain ⟨k₀, repo₀⟩ := p
    simp only [List.map_cons, List.nodup_cons] at hnd
    simp only [List.all_cons, Bool.and_eq_true] at htruthy
    obtain ⟨⟨hsrc, hdoc⟩, hrest⟩ := htruthy
    intro k repo hmem
    rcases List.mem_cons.mp hmem with heq | hmem'
    · injection heq with e1 e2
      subst e1; subst e2
      simp only [primaryCloneRepos]
      rcases hs : Val.get repo "source" with - | s
      · rcases hd : Val.get repo "doc" with - | d
        · -- neither source nor doc: key not in request
          simp only [hs, hd]
          rw [lookup_eq_none_iff]
          intro hk
          exact hnd.1 (primaryCloneRepos_keys_sub rest k hk)
        · have htr : pyTruthy d = true := by
            rw [hd] at hdoc
            simpa [Option.all] using hdoc
          simp only [hs, hd, if_pos htr]
          simp [lookup]
      · have htr : pyTruthy s = true := by
          rw [hs] at hsrc
          simpa [Option.all] using hsrc
        simp only [hs, if_pos htr]
        simp [lookup]
    · have hkne : k₀ ≠ k := by
        rintro rfl
        exact hnd.1 (List.mem_map.mpr ⟨(k₀, repo), hmem', rfl⟩)
      simp only [primaryCloneRepos]
      rcases hs : Val.get repo₀ "source" with - | s
      · rcases hd : Val.get repo₀ "doc" with - | d
        · simp only [hs, hd]
          exact ih hnd.2 hrest k repo hmem'
        · simp only [hs, hd]
          by_cases ht : pyTruthy d
          · rw [if_pos ht]
            simp only [lookup, hkne, if_false]
            exact ih hnd.2 hrest k repo hmem'
          · rw [if_neg ht]
            exact ih hnd.2 hrest k repo hmem'
      · simp only [hs]
        by_cases ht : pyTruthy s
        · rw [if_pos ht]
          simp only [lookup, hkne, if_false]
          exact ih hnd.2 hrest k repo hmem'
        · rw [if_neg ht]
          exact ih hnd.2 hrest k repo hmem'

/-- C8 witness: an entry with a source, an entry with only a doc, and an
entry with neither (silently omitted). -/
theorem c8_primary_clone_witness :
    lookup (primaryCloneRepos
        [("r1", Val.vdict [("source", Val.vdict [("url", Val.vstr "u1")])]),
         ("r2", Val.vdict [("doc", Val.vdict [("url", Val.vstr "u2")])]),
         ("r3", Val.vdict [])]) "r3"
      = (match Val.get (Val.vdict []) "source" with
         | some v => some v
         | none => Val.get (Val.vdict []) "doc") :=
  c8_primary_clone
    [("r1", Val.vdict [("source", Val.vdict [("url", Val.vstr "u1")])]),
     ("r2", Val.vdict [("doc", Val.vdict [("url", Val.vstr "u2")])]),
     ("r3", Val.vdict [])]
    (by decide) (by rfl) "r3" (Val.vdict []) (by simp)

/-! ## Claim C4 -/

/-- C4 counterexample: with `max_repos = 0` the resolved mapping is NOT
empty — the break check at line 226 runs only after the first insertion,
so one entry survives. -/
theorem c4_maxzero_counterexample :
    resolve [("a", Val.vdict [])] none 0 true = .ok ([], [("a", Val.vdict [])]) ∧
    ([("a", Val.vdict [])] : List (String × Val)).length ≠ 0 :=
  ⟨rfl, by simp⟩

/-- C4 (amended): for `maxCount >= 1` the resolved mapping has at most
`maxCount` entries; `maxCount = 0` does not yield an empty mapping but
still admits the first selected entry (a nonempty manifest resolves to
exactly one entry); a negative (or absent, the CLI default being `-1`)
`maxCount` applies no truncation at all. -/
theorem c4_truncation (repositories : List (String × Val))
    (cfgRead : Option (Option (List (String × Val)))) (maxRepos : Int) (lg : Bool) :
    (maxRepos < 0 →
      resolve repositories cfgRead maxRepos lg = resolveMerged repositories cfgRead lg) ∧
    (∀ ws res, 1 ≤ maxRepos → resolve repositories cfgRead maxRepos lg = .ok (ws, res) →
      (res.length : Int) ≤ maxRepos) ∧
    (∀ k v rest, repositories = (k, v) :: rest →
      resolve repositories none 0 lg = .ok ([], [(k, v)])) := by
  refine ⟨?_, ?_, ?_⟩
  · intro hneg
    unfold resolve
    cases hm : resolveMerged repositories cfgRead lg with
    | error e => rfl
    | ok p =>
      obtain ⟨ws, merged⟩ := p
      simp [not_le.mpr hneg]
  · intro ws res hge h
    unfold resolve at h
    cases hm : resolveMerged repositories cfgRead lg with
    | error e => rw [hm] at h; exact Except.noConfusion h
    | ok p =>
      obtain ⟨ws₀, merged⟩ := p
      rw [hm] at h
      simp only [show maxRepos ≥ 0 by omega, if_pos] at h
      cases hlim : limitGo (mergeKeysOf cfgRead ++ merged.map Prod.fst) merged [] 0 maxRepos with
      | error k => rw [hlim] at h; simp at h
      | ok limited =>
        rw [hlim] at h
        simp only [Except.ok.injEq, Prod.mk.injEq] at h
        obtain ⟨-, rfl⟩ := h
        have := limitGo_length (mergeKeysOf cfgRead ++ merged.map Prod.fst) merged []
          0 maxRepos limited hlim (by omega)
        simp only [List.length_nil] at this
        omega
  · rintro k v rest rfl
    simp [resolve, resolveMerged, mergeKeysOf, limitGo, lookup, dictInsert]

/-- C4 witness: a one-entry manifest with `max_repos = 0` resolves to that
entry (the amended zero-case behaviour), via `c4_truncation`. -/
theorem c4_truncation_witness :
    resolve [("b", Val.vint 3)] none 0 false = .ok ([], [("b", Val.vint 3)]) :=
  (c4_truncation [("b", Val.vint 3)] none 0 false).2.2 "b" (Val.vint 3) [] rfl

end Distroclone

namespace Distroclone

/-- Invariants of the inner backfill loop: requested names are distinct
and were missing; the final found-set is the old one plus the requested
names; every request is a declared package with the synthesized location;
every declared missing package is requested. -/
theorem reclonePkgs_spec (pkgs : List String) (urlv : Option Val) (distro : String)
    (pset : List String) (reqs : List (String × Val)) (pset' : List String)
    (h : reclonePkgs pkgs urlv distro pset = some (reqs, pset')) :
    ((reqs.map Prod.fst).Nodup ∧ (∀ p ∈ reqs.map Prod.fst, p ∉ pset)) ∧
    (∀ p, p ∈ pset' ↔ p ∈ pset ∨ p ∈ reqs.map Prod.fst) ∧
    (∀ p loc, (p, loc) ∈ reqs →
      p ∈ pkgs ∧ ∃ u, urlv = some u ∧ loc = recloneLoc u distro p) ∧
    (∀ p ∈ pkgs, p ∉ pset → p ∈ reqs.map Prod.fst) := by
  induction pkgs generalizing pset reqs pset' with
  | nil =>
    simp only [reclonePkgs, Option.some.injEq, Prod.mk.injEq] at h
    obtain ⟨rfl, rfl⟩ := h
    simp
  | cons p ps ih =>
    simp only [reclonePkgs] at h
    by_cases hp : p ∈ pset
    · rw [if_pos hp] at h
      obtain ⟨⟨hnd, hfresh⟩, hiff, hval, hcomp⟩ := ih pset reqs pset' h
      refine ⟨⟨hnd, hfresh⟩, hiff, ?_, ?_⟩
      · intro q loc hq
        obtain ⟨h1, h2⟩ := hval q loc hq
        exact ⟨by simp [h1], h2⟩
      · intro q hq hqn
        rcases List.mem_cons.mp hq with rfl | hq'
        · exact absurd hp hqn
        · exact hcomp q hq' hqn
    · rw [if_neg hp] at h
      cases hu : urlv with
      | none => rw [hu] at h; exact Option.noConfusion h
      | some u =>
        subst hu
        cases hrec : reclonePkgs ps (some u) distro (p :: pset) with
        | none => rw [hrec] at h; exact Option.noConfusion h
        | some q =>
          obtain ⟨reqs₀, pset₀⟩ := q
          rw [hrec] at h
          simp only [Option.some.injEq, Prod.mk.injEq] at h
          obtain ⟨h1, h2⟩ := h
          subst h1
          subst h2
          obtain ⟨⟨hnd₀, hfresh₀⟩, hiff₀, hval₀, hcomp₀⟩ := ih (p :: pset) reqs₀ pset₀ hrec
          refine ⟨⟨?_, ?_⟩, ?_, ?_, ?_⟩
          · simp only [List.map_cons, List.nodup_cons]
            refine ⟨fun hmem => ?_, hnd₀⟩
            exact (hfresh₀ p hmem) (by simp)
          · intro q hq
            simp only [List.map_cons, List.mem_cons] at hq
            rcases hq with rfl | hq'
            · exact hp
            · intro hqp
              exact (hfresh₀ q hq') (by simp [hqp])
          · intro q
            rw [hiff₀ q]
            simp only [List.map_cons, List.mem_cons]
            tauto
          · intro q loc hq
            rcases List.mem_cons.mp hq with heq | hq'
            · injection heq with e1 e2
              subst e1; subst e2
              exact ⟨by simp, u, rfl, rfl⟩
            · obtain ⟨h1, h2⟩ := hval₀ q loc hq'
              exact ⟨by simp [h1], h2⟩
          · intro q hq hqn
            simp only [List.map_cons, List.mem_cons]
            rcases List.mem_cons.mp hq with rfl | hq'
            · exact Or.inl rfl
            · by_cases hqp : q = p
              · exact Or.inl hqp
              · exact Or.inr (hcomp₀ q hq' (by simp [hqp, hqn]))

end Distroclone

namespace Distroclone

/-- Invariants of the outer backfill loop over repository entries. -/
theorem recloneGo_spec (repositories : List (String × Val)) (pset : List String)
    (distro : String) (reqs : List (String × Val)) (pset' : List String)
    (h : recloneGo repositories pset distro = some (reqs, pset')) :
    ((reqs.map Prod.fst).Nodup ∧ (∀ p ∈ reqs.map Prod.fst, p ∉ pset)) ∧
    (∀ p, p ∈ pset' ↔ p ∈ pset ∨ p ∈ reqs.map Prod.fst) ∧
    (∀ p loc, (p, loc) ∈ reqs → ∃ kr ∈ repositories, DeclaresPkg kr.2 p ∧
        ∃ release u, Val.get kr.2 "release" = some release ∧
          Val.get release "url" = some u ∧ loc = recloneLoc u distro p) ∧
    (∀ kr ∈ repositories, ∀ p, DeclaresPkg kr.2 p → p ∉ pset →
      p ∈ reqs.map Prod.fst) := by
  induction repositories generalizing pset reqs pset' with
  | nil =>
    simp only [recloneGo, Option.some.injEq, Prod.mk.injEq] at h
    obtain ⟨rfl, rfl⟩ := h
    simp
  | cons kr₀ rest ih =>
    obtain ⟨k₀, repo⟩ := kr₀
    simp only [recloneGo] at h
    cases hrel : Val.get repo "release" with
    | none =>
      simp only [hrel] at h
      obtain ⟨hA, hB, hC, hD⟩ := ih pset reqs pset' h
      refine ⟨hA, hB, ?_, ?_⟩
      · intro p loc hp
        obtain ⟨kr, hkr, hrest⟩ := hC p loc hp
        exact ⟨kr, by simp [hkr], hrest⟩
      · intro kr hkr p hdecl hpn
        rcases List.mem_cons.mp hkr with rfl | hkr'
        · obtain ⟨release, pkgs, hget, -⟩ := hdecl
          rw [hrel] at hget
          exact Option.noConfusion hget
        · exact hD kr hkr' p hdecl hpn
    | some release =>
      simp only [hrel] at h
      by_cases hguard : (pyTruthy release && hasKeyB release "packages") = true
      · rw [if_pos hguard] at h
        cases hpk : (Val.get release "packages").bind strListOf with
        | none => simp only [hpk] at h; exact Option.noConfusion h
        | some pkgs =>
          simp only [hpk] at h
          cases hrp : reclonePkgs pkgs (Val.get release "url") distro pset with
          | none => simp only [hrp] at h; exact Option.noConfusion h
          | some q₁ =>
            obtain ⟨reqs₁, pset₁⟩ := q₁
            simp only [hrp] at h
            cases hrg : recloneGo rest pset₁ distro with
            | none => simp only [hrg] at h; exact Option.noConfusion h
            | some q₂ =>
              obtain ⟨reqs₂, pset₂⟩ := q₂
              simp only [hrg] at h
              simp only [Option.some.injEq, Prod.mk.injEq] at h
              obtain ⟨h1, h2⟩ := h
              subst h1
              subst h2
              obtain ⟨⟨hnd₁, hfresh₁⟩, hiff₁, hval₁, hcomp₁⟩ :=
                reclonePkgs_spec pkgs (Val.get release "url") distro pset reqs₁ pset₁ hrp
              obtain ⟨⟨hnd₂, hfresh₂⟩, hiff₂, hval₂, hcomp₂⟩ :=
                ih pset₁ reqs₂ pset₂ hrg
              have hsub : ∀ p ∈ pset, p ∈ pset₁ := fun p hp => (hiff₁ p).mpr (Or.inl hp)
              have hdisj : ∀ p ∈ reqs₂.map Prod.fst, p ∉ reqs₁.map Prod.fst := by
                intro p hp hp1
                exact (hfresh₂ p hp) ((hiff₁ p).mpr (Or.inr hp1))
              refine ⟨⟨?_, ?_⟩, ?_, ?_, ?_⟩
              · rw [List.map_append]
                rw [List.nodup_append]
                exact ⟨hnd₁, hnd₂, fun p hp1 hp2 => hdisj p hp2 hp1⟩
              · intro p hp
                rw [List.map_append, List.mem_append] at hp
                rcases hp with hp | hp
                · exact hfresh₁ p hp
                · intro hpset
                  exact (hfresh₂ p hp) (hsub p hpset)
              · intro p
                rw [hiff₂ p, hiff₁ p, List.map_append, List.mem_append]
                tauto
              · intro p loc hp
                rw [List.mem_append] at hp
                rcases hp with hp | hp
                · obtain ⟨hpkgs, u, hu, hloc⟩ := hval₁ p loc hp
                  refine ⟨(k₀, repo), by simp, ?_, release, u, hrel, hu, hloc⟩
                  exact ⟨release, pkgs, hrel, hguard, hpk, hpkgs⟩
                · obtain ⟨kr, hkr, hrest⟩ := hval₂ p loc hp
                  exact ⟨kr, by simp [hkr], hrest⟩
              · intro kr hkr p hdecl hpn
                rw [List.map_append, List.mem_append]
                rcases List.mem_cons.mp hkr with rfl | hkr'
                · obtain ⟨release', pkgs', hget', hguard', hpk', hmem'⟩ := hdecl
                  rw [hrel] at hget'
                  obtain rfl := Option.some.injEq .. ▸ hget'
                  rw [hpk] at hpk'
                  obtain rfl := Option.some.injEq .. ▸ hpk'
                  exact Or.inl (hcomp₁ p hmem' hpn)
                · by_cases hp1 : p ∈ reqs₁.map Prod.fst
                  · exact Or.inl hp1
                  · refine Or.inr (hcomp₂ kr hkr' p hdecl ?_)
                    intro hp1'
                    rcases (hiff₁ p).mp hp1' with hc | hc
                    · exact hpn hc
                    · exact hp1 hc
      · rw [if_neg hguard] at h
        obtain ⟨hA, hB, hC, hD⟩ := ih pset reqs pset' h
        refine ⟨hA, hB, ?_, ?_⟩
        · intro p loc hp
          obtain ⟨kr, hkr, hrest⟩ := hC p loc hp
          exact ⟨kr, by simp [hkr], hrest⟩
        · intro kr hkr p hdecl hpn
          rcases List.mem_cons.mp hkr with rfl | hkr'
          · obtain ⟨release', pkgs', hget', hguard', -⟩ := hdecl
            rw [hrel] at hget'
            obtain rfl := Option.some.injEq .. ▸ hget'
            exact absurd hguard' hguard
          · exact hD kr hkr' p hdecl hpn

end Distroclone

namespace Distroclone

/-! ## Claim C7 -/

/-- C7: the backfill request contains each package name at most once even
when multiple entries declare it; a name is requested exactly when some
entry declares it and it is missing from the audited set; and each
requested name is mapped to the synthesized location
`{type: git, url: release.url, version: release/<distro>/<name>}` built
from a declaring entry's release block. -/
theorem c7_backfill (repositories : List (String × Val)) (pset : List String)
    (distro : String) (reqs : List (String × Val)) (pset' : List String)
    (h : recloneGo repositories pset distro = some (reqs, pset')) :
    (reqs.map Prod.fst).Nodup ∧
    (∀ p, p ∈ reqs.map Prod.fst ↔
      (p ∉ pset ∧ ∃ kr ∈ repositories, DeclaresPkg kr.2 p)) ∧
    (∀ p loc, (p, loc) ∈ reqs → ∃ kr ∈ repositories, DeclaresPkg kr.2 p ∧
        ∃ release u, Val.get kr.2 "release" = some release ∧
          Val.get release "url" = some u ∧ loc = recloneLoc u distro p) := by
  obtain ⟨⟨hnd, hfresh⟩, hiff, hval, hcomp⟩ :=
    recloneGo_spec repositories pset distro reqs pset' h
  refine ⟨hnd, ?_, hval⟩
  intro p
  constructor
  · intro hp
    obtain ⟨⟨p', loc⟩, hmem, rfl⟩ := List.mem_map.mp hp
    obtain ⟨kr, hkr, hdecl, -⟩ := hval p' loc hmem
    exact ⟨hfresh p' hp, kr, hkr, hdecl⟩
  · rintro ⟨hpn, kr, hkr, hdecl⟩
    exact hcomp kr hkr p hdecl hpn

/-- C7 witness: `release.packages = [p1, p2]`, audit set `{p1}` — the
backfill request is exactly `{p2}` with version `release/d/p2`. -/
theorem c7_backfill_witness :
    (([("p2", recloneLoc (Val.vstr "u") "d" "p2")].map Prod.fst).Nodup) ∧
    ("p2" ∈ [("p2", recloneLoc (Val.vstr "u") "d" "p2")].map Prod.fst ↔
      ("p2" ∉ ["p1"] ∧ ∃ kr ∈ [("repo1", Val.vdict [("release", Val.vdict
          [("url", Val.vstr "u"),
           ("packages", Val.vlist [Val.vstr "p1", Val.vstr "p2"])])])],
        DeclaresPkg kr.2 "p2")) := by
  have h := c7_backfill
    [("repo1", Val.vdict [("release", Val.vdict
        [("url", Val.vstr "u"),
         ("packages", Val.vlist [Val.vstr "p1", Val.vstr "p2"])])])]
    ["p1"] "d" [("p2", recloneLoc (Val.vstr "u") "d" "p2")] ["p2", "p1"] rfl
  exact ⟨h.1, h.2.1 "p2"⟩

end Distroclone

namespace Distroclone

/-! ## Well-formedness and compatibility lemmas -/

theorem wfVal_dict_cons (k : String) (v : Val) (rest : List (String × Val)) :
    wfVal (.vdict ((k, v) :: rest))
      = (wfVal v && !(rest.any (fun q => q.1 == k)) && wfVal (.vdict rest)) := by
  simp [wfVal]

theorem wf_nodup (t : List (String × Val)) (h : wfVal (.vdict t) = true) :
    (t.map Prod.fst).Nodup := by
  induction t with
  | nil => simp
  | cons q rest ih =>
    obtain ⟨k, v⟩ := q
    rw [wfVal_dict_cons] at h
    simp only [Bool.and_eq_true, Bool.not_eq_eq_eq_not, Bool.not_true, List.any_eq_false] at h
    obtain ⟨⟨hv, hany⟩, hrest⟩ := h
    simp only [List.map_cons, List.nodup_cons]
    refine ⟨fun hmem => ?_, ih hrest⟩
    obtain ⟨q, hq, hq1⟩ := List.mem_map.mp hmem
    exact absurd (by simpa using hq1) (by simpa using hany q hq)

theorem wf_value (t : List (String × Val)) (k : String) (v : Val)
    (h : wfVal (.vdict t) = true) (hm : (k, v) ∈ t) : wfVal v = true := by
  induction t with
  | nil => simp at hm
  | cons q rest ih =>
    obtain ⟨k₀, v₀⟩ := q
    rw [wfVal_dict_cons] at h
    simp only [Bool.and_eq_true] at h
    rcases List.mem_cons.mp hm with heq | hm'
    · injection heq with e1 e2
      subst e2
      exact h.1.1
    · exact ih h.2 hm'

theorem wf_tail (q : String × Val) (rest : List (String × Val))
    (h : wfVal (.vdict (q :: rest)) = true) : wfVal (.vdict rest) = true := by
  obtain ⟨k, v⟩ := q
  rw [wfVal_dict_cons] at h
  simp only [Bool.and_eq_true] at h
  exact h.2

theorem wf_lookup (t : List (String × Val)) (k : String) (v : Val)
    (h : wfVal (.vdict t) = true) (hm : (k, v) ∈ t) : lookup t k = some v :=
  lookup_mem_of_nodup t k v (wf_nodup t h) hm

theorem compatVal_dict_cons (a : List (String × Val)) (k : String) (bv : Val)
    (bs : List (String × Val)) :
    compatVal (.vdict a) (.vdict ((k, bv) :: bs))
      = ((match lookup a k with
          | some av => compatVal av bv
          | none => true) && compatVal (.vdict a) (.vdict bs)) := by
  simp [compatVal]

/-- Compatibility with an override depends only on the base's bindings at
the override's keys. -/
theorem compatVal_dict_nil (a : List (String × Val)) :
    compatVal (.vdict a) (.vdict []) = true := by
  simp [compatVal]

theorem compat_ext (bs a₁ a₂ : List (String × Val))
    (h : ∀ k ∈ bs.map Prod.fst, lookup a₂ k = lookup a₁ k) :
    compatVal (.vdict a₂) (.vdict bs) = compatVal (.vdict a₁) (.vdict bs) := by
  induction bs with
  | nil => rw [compatVal_dict_nil, compatVal_dict_nil]
  | cons q rest ih =>
    obtain ⟨k, bv⟩ := q
    rw [compatVal_dict_cons, compatVal_dict_cons]
    rw [h k (by simp), ih (fun k' hk' => h k' (by simp [hk']))]

/-- A compatible pair of values is either a pair of dicts or a pair of
equal concrete (non-dict) type. -/
theorem compat_cases (av bv : Val) (h : compatVal av bv = true) :
    (∃ ae be, av = .vdict ae ∧ bv = .vdict be)
    ∨ (tagOf av = tagOf bv ∧ tagOf bv ≠ .tdict) := by
  cases av <;> cases bv <;>
    first
      | exact Or.inl ⟨_, _, rfl, rfl⟩
      | exact Or.inr ⟨rfl, by simp [tagOf]⟩
      | (exfalso; simp [compatVal, tagOf] at h)

end Distroclone

namespace Distroclone

/-- A value's tag is `tdict` exactly when it is a dict. -/
theorem tag_tdict_iff (v : Val) : tagOf v = .tdict ↔ ∃ es, v = .vdict es := by
  cases v <;> simp [tagOf]

/-- Merging a well-formed dict's own bindings back into it is the
identity: every key looks up to the very value being merged. -/
theorem merge_self_absorb (t s : List (String × Val)) (path : List String) (lg : Bool) :
    (∀ q ∈ s, lookup t q.1 = some q.2) →
    (∀ q ∈ s, wfVal q.2 = true) →
    mergeEntries t s path lg = .ok ([], t) := by
  induction t, s, path, lg using mergeEntries.induct
  -- s = []
  next a path lg =>
    intro _ _
    exact mergeEntries_nil a path lg
  -- key absent: impossible, every key of s is bound in t
  next a path lg k₁ bv bs hnone ih =>
    intro hlk _
    rw [hlk (k₁, bv) (by simp)] at hnone
    exact Option.noConfusion hnone
  -- both dicts, nested merge raises: impossible by the nested IH
  next a path lg k₁ bs ae be c pd herr hsome ih =>
    intro hlk hwf
    have h1 := hlk (k₁, .vdict be) (by simp)
    rw [hsome] at h1
    injection h1 with h2
    injection h2 with h3
    subst h3
    have hwfbe : wfVal (.vdict ae) = true := hwf (k₁, .vdict ae) (by simp)
    rw [ih (fun q hq => wf_lookup ae q.1 q.2 hwfbe hq)
      (fun q hq => wf_value ae q.1 q.2 hwfbe hq)] at herr
    exact Except.noConfusion herr
  -- both dicts, nested ok, outer recursion raises: impossible
  next a path lg k₁ bs ae be ws₀ merged hok e houter hsome ih2 ih1 =>
    intro hlk hwf
    have h1 := hlk (k₁, .vdict be) (by simp)
    rw [hsome] at h1
    injection h1 with h2
    injection h2 with h3
    subst h3
    have hwfbe : wfVal (.vdict ae) = true := hwf (k₁, .vdict ae) (by simp)
    rw [ih2 (fun q hq => wf_lookup ae q.1 q.2 hwfbe hq)
      (fun q hq => wf_value ae q.1 q.2 hwfbe hq)] at hok
    simp only [Except.ok.injEq, Prod.mk.injEq] at hok
    obtain ⟨rfl, rfl⟩ := hok
    have hset : setKey a k₁ (.vdict ae) = a := setKey_lookup_self _ _ _ hsome
    rw [hset] at ih1 houter
    rw [ih1 (fun q hq => hlk q (by simp [hq])) (fun q hq => hwf q (by simp [hq]))] at houter
    exact Except.noConfusion houter
  -- both dicts, nested ok, outer ok
  next a path lg k₁ bs ae be ws₀ merged hok ws' r' houter hsome ih2 ih1 =>
    intro hlk hwf
    have h1 := hlk (k₁, .vdict be) (by simp)
    rw [hsome] at h1
    injection h1 with h2
    injection h2 with h3
    subst h3
    have hwfbe : wfVal (.vdict ae) = true := hwf (k₁, .vdict ae) (by simp)
    have hih2 := ih2 (fun q hq => wf_lookup ae q.1 q.2 hwfbe hq)
      (fun q hq => wf_value ae q.1 q.2 hwfbe hq)
    rw [hih2] at hok
    simp only [Except.ok.injEq, Prod.mk.injEq] at hok
    obtain ⟨rfl, rfl⟩ := hok
    have hset : setKey a k₁ (.vdict ae) = a := setKey_lookup_self _ _ _ hsome
    rw [hset] at ih1
    have hia := ih1 (fun q hq => hlk q (by simp [hq])) (fun q hq => hwf q (by simp [hq]))
    rw [mergeEntries_cons_dict a k₁ ae ae bs path lg hsome]
    simp only [hih2, hset, hia]
    rfl
  -- same concrete type: replace with the identical value
  next a path lg k₁ bv bs av hsome htag hnotboth ih1 =>
    intro hlk hwf
    have h1 := hlk (k₁, bv) (by simp)
    rw [hsome] at h1
    injection h1 with h2
    subst h2
    have hbd : tagOf av ≠ PyType.tdict := by
      intro habs
      obtain ⟨es, rfl⟩ := (tag_tdict_iff av).mp habs
      exact hnotboth es es rfl rfl
    have hset : setKey a k₁ av = a := setKey_lookup_self _ _ _ hsome
    rw [mergeEntries_cons_same a k₁ av av bs path lg hsome rfl hbd, hset]
    rw [hset] at ih1
    exact ih1 (fun q hq => hlk q (by simp [hq])) (fun q hq => hwf q (by simp [hq]))
  -- conflict cases: impossible, the types are equal
  next a path k₁ bv bs av hsome htag hnotboth e herr ih1 =>
    intro hlk hwf
    have h1 := hlk (k₁, bv) (by simp)
    rw [hsome] at h1
    injection h1 with h2
    subst h2
    exact absurd rfl htag
  next a path k₁ bv bs av hsome htag ws₀ r₀ hnotboth hok ih1 =>
    intro hlk hwf
    have h1 := hlk (k₁, bv) (by simp)
    rw [hsome] at h1
    injection h1 with h2
    subst h2
    exact absurd rfl htag
  next a path lg k₁ bv bs av hsome htag hlg hnotboth =>
    intro hlk hwf
    have h1 := hlk (k₁, bv) (by simp)
    rw [hsome] at h1
    injection h1 with h2
    subst h2
    exact absurd rfl htag

end Distroclone

namespace Distroclone

/-- Core of merge idempotence: merging a compatible, well-formed override
`b` into `a` succeeds with no warnings, and merging `b` again into the
result changes nothing. -/
theorem merge_idem_aux (a b : List (String × Val)) (path : List String) (lg : Bool) :
    wfVal (.vdict b) = true →
    compatVal (.vdict a) (.vdict b) = true →
    ∃ r, mergeEntries a b path lg = .ok ([], r) ∧
      ∀ p' lg', mergeEntries r b p' lg' = .ok ([], r) := by
  induction a, b, path, lg using mergeEntries.induct
  -- b = []
  next a path lg =>
    intro _ _
    exact ⟨a, mergeEntries_nil a path lg, fun p' lg' => mergeEntries_nil a p' lg'⟩
  -- key absent in a: insert verbatim
  next a path lg k₁ bv bs hnone ih =>
    intro hwf hcompat
    rw [wfVal_dict_cons] at hwf
    simp only [Bool.and_eq_true, Bool.not_eq_eq_eq_not, Bool.not_true, List.any_eq_false] at hwf
    obtain ⟨⟨hwfbv, hany⟩, hwfbs⟩ := hwf
    have hknotin : ∀ k ∈ bs.map Prod.fst, k ≠ k₁ := by
      intro k hk
      obtain ⟨q, hq, rfl⟩ := List.mem_map.mp hk
      simpa using hany q hq
    rw [compatVal_dict_cons] at hcompat
    simp only [Bool.and_eq_true] at hcompat
    obtain ⟨-, hc2⟩ := hcompat
    have hcompat' : compatVal (.vdict (a ++ [(k₁, bv)])) (.vdict bs) = true := by
      rw [compat_ext bs a (a ++ [(k₁, bv)]) (fun k hk => by
        rw [lookup_append]
        simp [lookup, Ne.symm (hknotin k hk)])]
      exact hc2
    obtain ⟨r, hr1, hr2⟩ := ih hwfbs hcompat'
    have hlka : lookup (a ++ [(k₁, bv)]) k₁ = some bv := by
      rw [lookup_append, hnone]
      simp [lookup]
    have hlkr : lookup r k₁ = some bv := by
      rw [merge_frame _ bs path lg [] r hr1 k₁
        ((lookup_eq_none_iff bs k₁).mpr (fun hmem => hknotin k₁ hmem rfl))]
      exact hlka
    refine ⟨r, ?_, ?_⟩
    · rw [mergeEntries_cons_absent a k₁ bv bs path lg hnone]
      exact hr1
    · intro p' lg'
      by_cases hdict : tagOf bv = PyType.tdict
      · obtain ⟨be, rfl⟩ := (tag_tdict_iff bv).mp hdict
        rw [mergeEntries_cons_dict r k₁ be be bs p' lg' hlkr]
        simp only [merge_self_absorb be be (p' ++ [k₁]) false
          (fun q hq => wf_lookup be q.1 q.2 hwfbv hq)
          (fun q hq => wf_value be q.1 q.2 hwfbv hq),
          setKey_lookup_self r k₁ (.vdict be) hlkr, hr2 p' lg', List.nil_append]
      · rw [mergeEntries_cons_same r k₁ bv bv bs p' lg' hlkr rfl hdict]
        rw [setKey_lookup_self r k₁ bv hlkr]
        exact hr2 p' lg'
  -- both dicts, nested merge raises: impossible under compatibility
  next a path lg k₁ bs ae be c pd herr hsome ih =>
    intro hwf hcompat
    rw [wfVal_dict_cons] at hwf
    simp only [Bool.and_eq_true] at hwf
    rw [compatVal_dict_cons] at hcompat
    simp only [Bool.and_eq_true, hsome] at hcompat
    obtain ⟨m, hm1, -⟩ := ih hwf.1.1 hcompat.1
    rw [hm1] at herr
    exact Except.noConfusion herr
  -- both dicts, nested ok, outer raises: impossible
  next a path lg k₁ bs ae be ws₀ merged hok e houter hsome ih2 ih1 =>
    intro hwf hcompat
    rw [wfVal_dict_cons] at hwf
    simp only [Bool.and_eq_true] at hwf
    rw [compatVal_dict_cons] at hcompat
    simp only [Bool.and_eq_true, hsome] at hcompat
    obtain ⟨m, hm1, hm2⟩ := ih2 hwf.1.1 hcompat.1
    rw [hm1] at hok
    simp only [Except.ok.injEq, Prod.mk.injEq] at hok
    obtain ⟨rfl, rfl⟩ := hok
    have hknotin : ∀ k ∈ bs.map Prod.fst, k ≠ k₁ := by
      intro k hk
      obtain ⟨q, hq, rfl⟩ := List.mem_map.mp hk
      have := hwf.1.2
      simp only [Bool.not_eq_eq_eq_not, Bool.not_true, List.any_eq_false] at this
      simpa using this q hq
    have hcompat' : compatVal (.vdict (setKey a k₁ (.vdict m))) (.vdict bs) = true := by
      rw [compat_ext bs a (setKey a k₁ (.vdict m)) (fun k hk =>
        lookup_setKey_ne a k₁ (.vdict m) k (hknotin k hk))]
      exact hcompat.2
    obtain ⟨r, hr1, -⟩ := ih1 hwf.2 hcompat'
    rw [hr1] at houter
    exact Except.noConfusion houter
  -- both dicts, nested ok, outer ok
  next a path lg k₁ bs ae be ws₀ merged hok ws' r' houter hsome ih2 ih1 =>
    intro hwf hcompat
    rw [wfVal_dict_cons] at hwf
    simp only [Bool.and_eq_true] at hwf
    rw [compatVal_dict_cons] at hcompat
    simp only [Bool.and_eq_true, hsome] at hcompat
    obtain ⟨m, hm1, hm2⟩ := ih2 hwf.1.1 hcompat.1
    rw [hm1] at hok
    simp only [Except.ok.injEq, Prod.mk.injEq] at hok
    obtain ⟨rfl, rfl⟩ := hok
    have hknotin : ∀ k ∈ bs.map Prod.fst, k ≠ k₁ := by
      intro k hk
      obtain ⟨q, hq, rfl⟩ := List.mem_map.mp hk
      have := hwf.1.2
      simp only [Bool.not_eq_eq_eq_not, Bool.not_true, List.any_eq_false] at this
      simpa using this q hq
    have hcompat' : compatVal (.vdict (setKey a k₁ (.vdict m))) (.vdict bs) = true := by
      rw [compat_ext bs a (setKey a k₁ (.vdict m)) (fun k hk =>
        lookup_setKey_ne a k₁ (.vdict m) k (hknotin k hk))]
      exact hcompat.2
    obtain ⟨r, hr1, hr2⟩ := ih1 hwf.2 hcompat'
    rw [hr1] at houter
    simp only [Except.ok.injEq, Prod.mk.injEq] at houter
    obtain ⟨rfl, rfl⟩ := houter
    have hlkr : lookup r k₁ = some (.vdict m) := by
      rw [merge_frame _ bs path lg [] r hr1 k₁
        ((lookup_eq_none_iff bs k₁).mpr (fun hmem => hknotin k₁ hmem rfl))]
      exact lookup_setKey_same a k₁ (.vdict m) (by simp [hsome])
    refine ⟨r, ?_, ?_⟩
    · rw [mergeEntries_cons_dict a k₁ ae be bs path lg hsome]
      simp only [hm1, hr1, List.nil_append]
    · intro p' lg'
      rw [mergeEntries_cons_dict r k₁ m be bs p' lg' hlkr]
      simp only [hm2 (p' ++ [k₁]) false, setKey_lookup_self r k₁ (.vdict m) hlkr,
        hr2 p' lg', List.nil_append]
  -- same concrete type: override value replaces
  next a path lg k₁ bv bs av hsome htag hnotboth ih1 =>
    intro hwf hcompat
    rw [wfVal_dict_cons] at hwf
    simp only [Bool.and_eq_true] at hwf
    rw [compatVal_dict_cons] at hcompat
    simp only [Bool.and_eq_true, hsome] at hcompat
    have hknotin : ∀ k ∈ bs.map Prod.fst, k ≠ k₁ := by
      intro k hk
      obtain ⟨q, hq, rfl⟩ := List.mem_map.mp hk
      have := hwf.1.2
      simp only [Bool.not_eq_eq_eq_not, Bool.not_true, List.any_eq_false] at this
      simpa using this q hq
    have hbd : tagOf bv ≠ PyType.tdict := by
      intro habs
      obtain ⟨be, rfl⟩ := (tag_tdict_iff bv).mp habs
      obtain ⟨ae, rfl⟩ := (tag_tdict_iff av).mp (htag.trans habs)
      exact hnotboth ae be rfl rfl
    have hcompat' : compatVal (.vdict (setKey a k₁ bv)) (.vdict bs) = true := by
      rw [compat_ext bs a (setKey a k₁ bv) (fun k hk =>
        lookup_setKey_ne a k₁ bv k (hknotin k hk))]
      exact hcompat.2
    obtain ⟨r, hr1, hr2⟩ := ih1 hwf.2 hcompat'
    have hlkr : lookup r k₁ = some bv := by
      rw [merge_frame _ bs path lg [] r hr1 k₁
        ((lookup_eq_none_iff bs k₁).mpr (fun hmem => hknotin k₁ hmem rfl))]
      exact lookup_setKey_same a k₁ bv (by simp [hsome])
    refine ⟨r, ?_, ?_⟩
    · rw [mergeEntries_cons_same a k₁ av bv bs path lg hsome htag hbd]
      exact hr1
    · intro p' lg'
      rw [mergeEntries_cons_same r k₁ bv bv bs p' lg' hlkr rfl hbd]
      rw [setKey_lookup_self r k₁ bv hlkr]
      exact hr2 p' lg'
  -- conflict cases: impossible under compatibility
  next a path k₁ bv bs av hsome htag e hnotboth herr ih1 =>
    intro hwf hcompat
    rw [compatVal_dict_cons] at hcompat
    simp only [Bool.and_eq_true, hsome] at hcompat
    rcases compat_cases av bv hcompat.1 with ⟨ae, be, rfl, rfl⟩ | ⟨heq, -⟩
    · exact absurd rfl (hnotboth ae be rfl)
    · exact absurd heq htag
  next a path k₁ bv bs av hsome htag ws₀ r₀ hnotboth hok ih1 =>
    intro hwf hcompat
    rw [compatVal_dict_cons] at hcompat
    simp only [Bool.and_eq_true, hsome] at hcompat
    rcases compat_cases av bv hcompat.1 with ⟨ae, be, rfl, rfl⟩ | ⟨heq, -⟩
    · exact absurd rfl (hnotboth ae be rfl)
    · exact absurd heq htag
  next a path lg k₁ bv bs av hsome htag hlg hnotboth =>
    intro hwf hcompat
    rw [compatVal_dict_cons] at hcompat
    simp only [Bool.and_eq_true, hsome] at hcompat
    rcases compat_cases av bv hcompat.1 with ⟨ae, be, rfl, rfl⟩ | ⟨heq, -⟩
    · exact absurd rfl (hnotboth ae be rfl)
    · exact absurd heq htag

end Distroclone

namespace Distroclone

/-! ## Claim C9 -/

/-- C9: for a base and an override (a well-formed dict) with no
type-conflicting keys at any depth, merging the override in twice yields
the same result as merging it once: `merge(merge(a, b), b) = merge(a, b)`
(both passes succeed with no warnings). -/
theorem c9_merge_idem (a b : List (String × Val)) (path : List String) (lg : Bool)
    (hwf : wfVal (.vdict b) = true)
    (hcompat : compatVal (.vdict a) (.vdict b) = true) :
    ∃ r, mergeEntries a b path lg = .ok ([], r) ∧
      mergeEntries r b path lg = .ok ([], r) := by
  obtain ⟨r, h1, h2⟩ := merge_idem_aux a b path lg hwf hcompat
  exact ⟨r, h1, h2 path lg⟩

/-- C9 witness: the spec's merge example
`a = {x: 1, y: {p: 1, q: 2}}`, `b = {y: {p: 9, r: 3}, z: 5}`. -/
theorem c9_merge_idem_witness :
    ∃ r, mergeEntries [("x", Val.vint 1), ("y", Val.vdict [("p", Val.vint 1), ("q", Val.vint 2)])]
        [("y", Val.vdict [("p", Val.vint 9), ("r", Val.vint 3)]), ("z", Val.vint 5)]
        [] true = .ok ([], r) ∧
      mergeEntries r
        [("y", Val.vdict [("p", Val.vint 9), ("r", Val.vint 3)]), ("z", Val.vint 5)]
        [] true = .ok ([], r) :=
  c9_merge_idem
    [("x", Val.vint 1), ("y", Val.vdict [("p", Val.vint 1), ("q", Val.vint 2)])]
    [("y", Val.vdict [("p", Val.vint 9), ("r", Val.vint 3)]), ("z", Val.vint 5)]
    [] true (by simp [wfVal]) (by simp [compatVal, lookup, tagOf])

end Distroclone
